import Mathlib

/-!
Verification development for the rule-based CI-log summarizer
(`rulebased_summarizer.py`).  The Python source is shallowly embedded:
log lines and file contents are lists of characters (`Str`), Python's
`None`-able strings become `Option Str`, and every regular expression of
the source is translated into an explicit, executable character-list
matcher with the same greedy/backtracking semantics on the character
classes involved.  Python string operations used by the source
(`strip`, `lower`, `split`, `splitlines`, substring containment,
`startswith`, `endswith`) are modelled over ASCII whitespace, matching
their behaviour on the log text the program consumes.
-/

namespace RulebasedSummarizer

abbrev Str := List Char

/-- ASCII whitespace, as matched by Python's `str.strip` / regex `\s`
on ASCII input. -/
def isWsPy (c : Char) : Bool :=
  c = ' ' || c = '\t' || c = '\n' || c = '\r' || c = '\x0b' || c = '\x0c'

/-- Python `str.strip()` (ASCII whitespace). -/
def trimL (s : Str) : Str :=
  ((s.dropWhile isWsPy).reverse.dropWhile isWsPy).reverse

/-- Python's ASCII `str.lower()` on one character. -/
def lowerC (c : Char) : Char :=
  if 'A' ≤ c && c ≤ 'Z' then Char.ofNat (c.toNat + 32) else c

/-- Python `str.lower()` (ASCII). -/
def lowerL (s : Str) : Str := s.map lowerC

/-- Python substring containment `pat in hay`. -/
def hasSub (pat : Str) : Str → Bool
  | [] => pat.isEmpty
  | c :: t => pat.isPrefixOf (c :: t) || hasSub pat t

/-- Python `hay.split(pat, 1)[1]`: the remainder after the first
occurrence of a (nonempty) separator; `none` when absent. -/
def afterSub (pat : Str) : Str → Option Str
  | [] => if pat.isEmpty then some [] else none
  | c :: t =>
    if pat.isPrefixOf (c :: t) then some ((c :: t).drop pat.length)
    else afterSub pat t

/-- Python `s.split(c, 1)`: split at the first occurrence of a one-character
separator, `none` when the separator is absent. -/
def splitOnceChar (c : Char) : Str → Option (Str × Str)
  | [] => none
  | x :: t =>
    if x = c then some ([], t)
    else match splitOnceChar c t with
      | some (a, b) => some (x :: a, b)
      | none => none

/-- Python `s.split(c)` for a one-character separator (always at least
one piece, as in Python). -/
def splitAllChar (c : Char) : Str → List Str
  | [] => [[]]
  | x :: t =>
    let r := splitAllChar c t
    if x = c then [] :: r
    else match r with
      | h :: rest => (x :: h) :: rest
      | [] => [[x]]

/-- Python `sep.join(parts)`. -/
def joinWith (sep : Str) : List Str → Str
  | [] => []
  | [p] => p
  | p :: rest => p ++ sep ++ joinWith sep rest

/-- Python `s.startswith(pat)`. -/
def isPre (pat s : Str) : Bool := pat.isPrefixOf s

/-- Python `s.endswith(pat)`. -/
def endsWithL (pat s : Str) : Bool := pat.reverse.isPrefixOf s.reverse

/-- Python `s.replace(a, b)` for one-character `a`, `b`. -/
def replaceChar (a b : Char) (s : Str) : Str :=
  s.map (fun c => if c = a then b else c)

/-- Numeric value of a (decimal) digit run, as Python `int`. -/
def natOfDigits (ds : Str) : Nat :=
  ds.foldl (fun acc c => 10 * acc + (c.toNat - 48)) 0

/-- Decimal rendering of a natural number (fuel-based, structural). -/
def natToStrAux : Nat → Nat → Str
  | 0, _ => []
  | fuel + 1, n =>
    if n < 10 then [Char.ofNat (48 + n)]
    else natToStrAux fuel (n / 10) ++ [Char.ofNat (48 + n % 10)]

/-- Decimal rendering of a natural number, Python `str(n)` for `n ≥ 0`. -/
def natToStr (n : Nat) : Str := natToStrAux (n + 1) n

/-! ### Line Normalizer: `strip_timestamp` (source lines 6–12)

The source matches `^\d{4}-\d{2}-\d{2}T[0-9:.]+Z\s+(.*)$` and returns
group 1, else the line unchanged.  The matcher below translates the
regex literally: the character classes `[0-9:.]` and `\s` are disjoint
from the fixed characters that follow them (`Z`, and the first `.`-match
respectively), so the greedy `+` never backtracks and a maximal-run scan
is exact.  `.` does not match a newline and `$` also matches just before
a final newline, which the final step reproduces. -/

/-- Consume exactly `n` decimal digits. -/
def takeDigits : Nat → Str → Option Str
  | 0, cs => some cs
  | _ + 1, [] => none
  | n + 1, c :: cs => if c.isDigit then takeDigits n cs else none

/-- Consume one expected character. -/
def expectChar (c : Char) : Str → Option Str
  | [] => none
  | x :: cs => if x = c then some cs else none

/-- Consume a maximal nonempty run of characters satisfying `p`
(regex `X+` for a class `X` disjoint from what follows). -/
def runPlus (p : Char → Bool) : Str → Option Str
  | [] => none
  | c :: cs => if p c then some (cs.dropWhile p) else none

/-- The regex class `[0-9:.]`. -/
def isTimeChar (c : Char) : Bool := c.isDigit || c = ':' || c = '.'

/-- The step `(.*)$` of the regex: `.` does not match a newline, and `$`
also matches just before one final newline, so the capture succeeds
exactly when at most one `'\n'` remains and it is the last character. -/
def dollarNl (cs : Str) : Option Str :=
  if cs.contains '\n' then
    if cs.getLast? = some '\n' && !(cs.dropLast.contains '\n') then
      some cs.dropLast
    else none
  else some cs

/-- Matcher for `^\d{4}-\d{2}-\d{2}T[0-9:.]+Z\s+(.*)$`; returns the text
captured by `(.*)`. -/
def tsRest (cs : Str) : Option Str :=
  ((((((((takeDigits 4 cs).bind (expectChar '-')).bind
    (takeDigits 2)).bind (expectChar '-')).bind
    (takeDigits 2)).bind (expectChar 'T')).bind
    (runPlus isTimeChar)).bind (expectChar 'Z')).bind
    (runPlus isWsPy) |>.bind dollarNl

/-- `strip_timestamp` on character lists. -/
def strip_timestampL (line : Str) : Str :=
  match tsRest line with
  | some rest => rest
  | none => line

/-- `strip_timestamp` (source lines 6–12). -/
def strip_timestamp (line : String) : String :=
  String.mk (strip_timestampL line.data)

/-- Modelled from the spec's words (§4.1): a timestamp of the form
four-digit year, `-`, two-digit month, `-`, two-digit day, `T`, a time
with fractional seconds (`HH:MM:SS.<digits>`), `Z`, and a single space
before the rest.  Used only to compare the spec's contract against the
source's `strip_timestamp`. -/
def specTsRest (cs : Str) : Option Str :=
  ((((((((((((((takeDigits 4 cs).bind (expectChar '-')).bind
    (takeDigits 2)).bind (expectChar '-')).bind
    (takeDigits 2)).bind (expectChar 'T')).bind
    (takeDigits 2)).bind (expectChar ':')).bind
    (takeDigits 2)).bind (expectChar ':')).bind
    (takeDigits 2)).bind (expectChar '.')).bind
    (runPlus Char.isDigit)).bind (expectChar 'Z')).bind
    (expectChar ' ')

/-! ### Block Grouper: `parse_groups` (source lines 15–42) -/

structure GroupBlock where
  name : Str
  body : List Str
deriving DecidableEq

def groupStartMark : Str := ("##[group]").data

def groupEndMark : Str := ("##[endgroup]").data

/-- The loop of `parse_groups`, with the mutable `current` made explicit.
A start marker closes and emits any open block and opens a new one named
by the text after the marker, stripped; an end marker closes and emits
the open block (no-op when none); other lines append to the open block's
body; a block still open at end-of-input is emitted. -/
def parse_groups_aux (cur : Option GroupBlock) : List Str → List GroupBlock
  | [] =>
    match cur with
    | some c => [c]
    | none => []
  | l :: ls =>
    if isPre groupStartMark l then
      let nb : GroupBlock := ⟨trimL (l.drop groupStartMark.length), []⟩
      match cur with
      | some c => c :: parse_groups_aux (some nb) ls
      | none => parse_groups_aux (some nb) ls
    else if isPre groupEndMark l then
      match cur with
      | some c => c :: parse_groups_aux none ls
      | none => parse_groups_aux none ls
    else
      match cur with
      | some c => parse_groups_aux (some ⟨c.name, c.body ++ [l]⟩) ls
      | none => parse_groups_aux none ls

/-- `parse_groups` (source lines 15–42). -/
def parse_groups (lines : List Str) : List GroupBlock :=
  parse_groups_aux none lines

/-! ### Step Status Inferencer: `infer_step_status` (source lines 162–222) -/

inductive Status where
  | success
  | failure
  | unknown
deriving DecidableEq

/-- Literal part of the regex `Process completed with exit code\s+(-?\d+)`. -/
def exitLit : Str := ("Process completed with exit code").data

/-- The suffix `\s+(-?\d+)` of the exit-code regex: at least one
whitespace character, an optional minus sign, then a maximal nonempty
digit run (the classes `\s`, `-`, `\d` are disjoint, so greediness never
backtracks).  Returns the captured integer. -/
def parseWsInt : Str → Option Int
  | [] => none
  | c :: rest =>
    if isWsPy c then
      match rest.dropWhile isWsPy with
      | '-' :: ds =>
        let run := ds.takeWhile Char.isDigit
        if run.isEmpty then none else some (-(Int.ofNat (natOfDigits run)))
      | ds =>
        let run := ds.takeWhile Char.isDigit
        if run.isEmpty then none else some (Int.ofNat (natOfDigits run))
    else none

/-- `re.search(r"Process completed with exit code\s+(-?\d+)", l)`:
leftmost position where the literal matches and the tail parses. -/
def findExit : Str → Option Int
  | [] => none
  | c :: rest =>
    match
      (if exitLit.isPrefixOf (c :: rest)
       then parseWsInt ((c :: rest).drop exitLit.length)
       else none) with
    | some n => some n
    | none => findExit rest

def errMarks : List Str :=
  [("##[error]").data, ("::error::").data]

def failPhrases : List Str :=
  [("BUILD FAILED").data,
   ("FAILURE: Build completed").data,
   ("FAILURE: Build failed").data,
   ("Error:").data,
   ("error:").data,
   ("ERROR ").data,
   ("There were failing tests").data,
   ("Tests failed").data,
   ("Test Failed").data,
   ("test failed").data,
   ("Exiting with error").data,
   ("Completed with result 'Failed'").data,
   ("Completed with result 'failed'").data]

def succPhrases : List Str :=
  [("BUILD SUCCESSFUL").data,
   ("BUILD SUCCEEDED").data,
   ("Finished: SUCCESS").data,
   ("All tests passed").data,
   ("Tests passed").data,
   ("Completed with result 'Succeeded'").data,
   ("Completed with result 'succeeded'").data]

structure InferState where
  ec : Option Int
  err : Bool
  fk : Bool
  sk : Bool
deriving DecidableEq

/-- One iteration of the scanning loop of `infer_step_status`: the line
is stripped, then the exit-code regex, the error markers, the failure
phrases and the success phrases are checked in turn. -/
def inferLine (st : InferState) (line : Str) : InferState :=
  let l := trimL line
  let st :=
    match findExit l with
    | some n => { st with ec := some n }
    | none => st
  let st := if errMarks.any (fun p => hasSub p l) then { st with err := true } else st
  let st := if failPhrases.any (fun p => hasSub p l) then { st with fk := true } else st
  if succPhrases.any (fun p => hasSub p l) then { st with sk := true } else st

/-- `infer_step_status` (source lines 162–222). -/
def infer_step_status (lines : List Str) : Status × Option Int :=
  let st := lines.foldl inferLine ⟨none, false, false, false⟩
  match st.ec with
  | some n => (if n = 0 then Status.success else Status.failure, some n)
  | none =>
    if st.err || st.fk then (Status.failure, none)
    else if st.sk then (Status.success, none)
    else (Status.unknown, none)

/-- The exit code retained by the scan: that of the last line on which
the exit-code regex matches (each match overwrites the previous one). -/
def lastExit (lines : List Str) : Option Int :=
  lines.reverse.findSome? (fun l => findExit (trimL l))

/-! ### Root-Cause Extractor: `extract_root_cause` (source lines 125–159) -/

def keyPhrases : List Str :=
  [("##[error]").data,
   ("::error::").data,
   ("What went wrong:").data,
   ("FAILURE: Build completed").data,
   ("FAILURE: Build failed").data,
   ("BUILD FAILED").data,
   ("There were failing tests").data,
   ("Test Failed").data,
   ("Tests failed").data,
   ("error:").data,
   ("Error:").data,
   ("ERROR ").data,
   ("Traceback (most recent call last):").data,
   ("Exception").data,
   ("AssertionError").data]

def isMarkerLine (l : Str) : Bool := keyPhrases.any (fun p => hasSub p l)

/-- `re.sub(r"\s+", " ", text)`: collapse every whitespace run to one
space (structural, tracking whether the previous character was part of a
run). -/
def collapseWsAux (prevWs : Bool) : Str → Str
  | [] => []
  | c :: rest =>
    if isWsPy c then
      if prevWs then collapseWsAux true rest
      else ' ' :: collapseWsAux true rest
    else c :: collapseWsAux false rest

def collapseWs (s : Str) : Str := collapseWsAux false s

/-- The inner loop of `extract_root_cause`: from index `j`, collect up to
`k` further stripped lines, stopping at the first line that is blank
after stripping. -/
def rcFollow (lines : List Str) (j : Nat) : Nat → List Str
  | 0 => []
  | k + 1 =>
    if j < lines.length then
      let l := trimL (lines.getD j [])
      if l.isEmpty then []
      else l :: rcFollow lines (j + 1) k
    else []

/-- The snippet built for a marker found at index `i`: that line plus up
to five following lines, all stripped, joined with single spaces, with
whitespace runs collapsed. -/
def rcBlock (lines : List Str) (i : Nat) : Str :=
  collapseWs (joinWith ([' ']) (trimL (lines.getD i []) :: rcFollow lines (i + 1) 5))

/-- The downward scan `for i in range(len(lines)-1, -1, -1)`: the largest
index below `n` whose line contains a key phrase. -/
def rcScan (lines : List Str) : Nat → Option Nat
  | 0 => none
  | n + 1 => if isMarkerLine (lines.getD n []) then some n else rcScan lines n

/-- `extract_root_cause` (source lines 125–159). -/
def extract_root_cause (lines : List Str) : Option Str :=
  match rcScan lines lines.length with
  | some i => some (rcBlock lines i)
  | none => none

/-! ### Metadata Extractor: `extract_basic_metadata` (source lines 45–91)

The Python function also returns `job_name`, which is just the job
directory's name and is modelled where `summarize_job_directory` uses
it; the four scanned fields are modelled here.  Python's truthiness test
`not x` on an optional string is `falsyS`. -/

structure MetaState where
  repo : Option Str
  ref : Option Str
  os_name : Option Str
  runner_image : Option Str
deriving DecidableEq

/-- Python `not x` for `x` an optional string (`None` and `""` are
falsy). -/
def falsyS : Option Str → Bool
  | none => true
  | some s => s.isEmpty

def jdaLit : Str := ("Job defined at:").data

def repoLit : Str := ("repository:").data

def refLit : Str := ("ref:").data

def osLit : Str := ("Operating System").data

def imageLit : Str := ("Image:").data

def imageLowLit : Str := ("image:").data

def refsSlash : Str := ("refs/").data

/-- The character class `[A-Za-z0-9_.:-]` of the image-token regex. -/
def isTokChar (c : Char) : Bool :=
  c.isAlphanum || c = '_' || c = '.' || c = ':' || c = '-'

/-- Backtracking step of `image[: ]+([A-Za-z0-9_.:-]+)`: given the text
`s` after the literal and the length `n` of the maximal `[: ]` run, find
the largest separator length `i` with `1 ≤ i ≤ n` such that a token
character follows (for `i < n` the following character is `':'` or `' '`,
of which only `':'` is a token character — exactly the regex's
backtracking into the separator run). -/
def sepBack (s : Str) : Nat → Option Nat
  | 0 => none
  | n + 1 => if isTokChar (s.getD (n + 1) ' ') then some (n + 1) else sepBack s n

def imageWord : Str := ("image").data

/-- Attempt of the image-token regex at one position: case-insensitive
literal `image`, then `[: ]+`, then the captured token. -/
def imageTokenAt (cs : Str) : Option Str :=
  if lowerL (cs.take 5) = imageWord then
    let s := cs.drop 5
    let n := (s.takeWhile (fun c => c = ':' || c = ' ')).length
    match sepBack s n with
    | some i => some ((s.drop i).takeWhile isTokChar)
    | none => none
  else none

/-- `re.search(r"image[: ]+([A-Za-z0-9_.:-]+)", line, re.IGNORECASE)`:
leftmost position at which the attempt succeeds. -/
def imageTokenScan : Str → Option Str
  | [] => none
  | c :: rest =>
    match imageTokenAt (c :: rest) with
    | some t => some t
    | none => imageTokenScan rest

/-- Branch 1 of the scanning loop (source lines 57–65): a line
containing `Job defined at:` while `repo` is still falsy sets `ref`
(even to `None`) from the `@` split and, when the path has at least two
`/`-segments, sets `repo` to their join. -/
def mlJda (st : MetaState) (l : Str) : MetaState :=
  if hasSub jdaLit l ∧ falsyS st.repo then
    let raw := trimL ((afterSub jdaLit l).getD [])
    let pr :=
      match splitOnceChar '@' raw with
      | some (p, r) => (p, some r)
      | none => (raw, (none : Option Str))
    let parts := splitAllChar '/' pr.1
    let st1 := { st with ref := pr.2 }
    if 2 ≤ parts.length then
      { st1 with repo := some (joinWith (['/']) (parts.take 2)) }
    else st1
  else st

/-- Branch 2 (source lines 67–68): `repository:` fallback for `repo`. -/
def mlRepo (st : MetaState) (l : Str) : MetaState :=
  if hasSub repoLit l ∧ falsyS st.repo then
    { st with repo := some (trimL ((afterSub repoLit l).getD [])) }
  else st

/-- Branch 3 (source lines 70–73): `ref:` fallback for `ref`, kept only
when the value starts with `refs/`. -/
def mlRef (st : MetaState) (l : Str) : MetaState :=
  if hasSub refLit l ∧ falsyS st.ref then
    let possible := trimL ((afterSub refLit l).getD [])
    if isPre refsSlash possible then { st with ref := some possible } else st
  else st

/-- Branch 4 (source lines 75–76): a line equal to `Operating System`
sets `os_name` to the next line, stripped — with no first-match guard. -/
def mlOs (st : MetaState) (l : Str) (next : Option Str) : MetaState :=
  match next with
  | some nl => if l = osLit then { st with os_name := some (trimL nl) } else st
  | none => st

/-- Branch 5 (source lines 78–79): `Image:`-prefixed line sets
`runner_image`. -/
def mlImg1 (st : MetaState) (l : Str) : MetaState :=
  if isPre imageLit l ∧ falsyS st.runner_image then
    { st with runner_image := some (trimL (l.drop imageLit.length)) }
  else st

/-- Branch 6 (source lines 80–83): case-insensitive `image:` regex
fallback for `runner_image`. -/
def mlImg2 (st : MetaState) (l : Str) : MetaState :=
  if hasSub imageLowLit (lowerL l) ∧ falsyS st.runner_image then
    match imageTokenScan l with
    | some tok => { st with runner_image := some tok }
    | none => st
  else st

/-- One iteration of the scanning loop of `extract_basic_metadata`
(`next` is `lines[i+1]` when it exists).  The six guarded branches run
in source order on the threaded state. -/
def metaLine (st : MetaState) (l : Str) (next : Option Str) : MetaState :=
  mlImg2 (mlImg1 (mlOs (mlRef (mlRepo (mlJda st l) l) l) l next) l) l

/-- The indexed loop of `extract_basic_metadata`; `lines[i+1]` is the
head of the remaining lines. -/
def extractMetaAux (st : MetaState) : List Str → MetaState
  | [] => st
  | l :: rest => extractMetaAux (metaLine st l rest.head?) rest

/-- `extract_basic_metadata` (source lines 45–91), scanned fields. -/
def extract_basic_metadata (lines : List Str) : MetaState :=
  extractMetaAux ⟨none, none, none, none⟩ lines

/-! ### Test-Command Detector: `extract_test_commands` (source lines 94–122) -/

def testKeywords : List Str :=
  [("pytest").data, ("nose").data, ("unittest").data, ("py.test").data,
   ("mvn test").data, ("mvn verify").data,
   ("gradlew").data, ("gradle test").data,
   ("npm test").data, ("yarn test").data, ("pnpm test").data,
   ("go test").data, ("cargo test").data,
   ("phpunit").data, ("rspec").data,
   ("ctest").data, ("jest ").data, (" karma").data, ("dokka").data]

def runSpace : Str := ("run ").data

def runWord : Str := ("run").data

/-- Regex word characters `\w` (ASCII). -/
def wordChar (c : Char) : Bool := c.isAlphanum || c = '_'

def nonWordB : Option Char → Bool
  | none => true
  | some p => !wordChar p

/-- `re.search(r"\bRun\b(.*)$", raw, re.IGNORECASE)`: leftmost position
with a word boundary, the literal `Run` case-insensitively, and a word
boundary after it; returns the `(.*)` capture.  (Group names come from
single log lines and contain no newline, so `$` is end-of-input.) -/
def findRunTail (prev : Option Char) : Str → Option Str
  | [] => none
  | c :: rest =>
    if nonWordB prev ∧ lowerL ((c :: rest).take 3) = runWord
       ∧ nonWordB ((c :: rest).drop 3).head? then
      some ((c :: rest).drop 3)
    else findRunTail (some c) rest

/-- `extract_test_commands` (source lines 94–122). -/
def extract_test_commands (groups : List GroupBlock) : List Str :=
  groups.foldl (fun acc g =>
    let header := lowerL g.name
    let bodyFirst :=
      match g.body.head? with
      | some b => lowerL (trimL b)
      | none => []
    let combined := header ++ [' '] ++ bodyFirst
    if testKeywords.any (fun kw => hasSub kw combined) ∧ hasSub runSpace header then
      let cmd :=
        match findRunTail none g.name with
        | some t => trimL t
        | none => trimL g.name
      if ¬ cmd.isEmpty ∧ ¬ acc.contains cmd then acc ++ [cmd] else acc
    else acc) []

/-! ### Step Namer: `parse_step_name` (source lines 225–253) -/

/-- `pathlib.Path.stem`: the file name with its suffix removed, where a
suffix starts at the last `.` that is neither the first nor the last
character. -/
def stemOf (n : Str) : Str :=
  match n.reverse.findIdx? (fun c => c = '.') with
  | none => n
  | some rj =>
    let i := n.length - 1 - rj
    if 0 < i ∧ i < n.length - 1 then n.take i else n

/-- `re.match(r"^\d+_(.+)$", stem)` followed by
`.replace("_", " ").strip()`; the empty result also stands for "no
name yet", matching Python's falsy chaining. -/
def stepNameFromStem (stem : Str) : Str :=
  let ds := stem.takeWhile Char.isDigit
  if ds.isEmpty then []
  else
    match stem.drop ds.length with
    | '_' :: rest => if rest.isEmpty then [] else trimL (replaceChar '_' ' ' rest)
    | _ => []

/-- `re.match(r"Run\s+(.*)$", group_name, re.IGNORECASE)`. -/
def runTailMatch (g : Str) : Option Str :=
  if lowerL (g.take 3) = runWord then
    (runPlus isWsPy (g.drop 3)).bind dollarNl
  else none

/-- First `##[group]` line of the step (after stripping), with the text
after the marker stripped. -/
def groupFirst (lines : List Str) : Option Str :=
  lines.findSome? (fun raw =>
    let l := trimL raw
    if isPre groupStartMark l then some (trimL (l.drop groupStartMark.length))
    else none)

/-- `parse_step_name` (source lines 225–253). -/
def parse_step_name (fname : Str) (lines : List Str) : Str :=
  let stem := stemOf fname
  let n1 := stepNameFromStem stem
  if ¬ n1.isEmpty then n1
  else
    let n2 :=
      match groupFirst lines with
      | some gname => trimL ((runTailMatch gname).getD gname)
      | none => []
    if ¬ n2.isEmpty then n2 else stem

/-! ### Job and file model

A job directory is its name plus the files directly inside it; a file is
its name plus its textual content (`read_text` with `errors="ignore"` is
byte-level and not modelled; contents are text).  `glob("*.txt")`
matches exactly the entries whose name ends in `.txt` (pathlib wildcards
also match a leading dot).  In `process_dataset` the glob could in
principle also return subdirectories; the model's directories contain
files only. -/

structure MFile where
  name : Str
  content : Str
deriving DecidableEq

structure MDir where
  name : Str
  files : List MFile
deriving DecidableEq

/-- `str.splitlines` for text whose line terminators are `\n` or `\r\n`
(the form CI logs use; lone `\r`, `\v`, `\f` and Unicode terminators are
not modelled). -/
def stripCr (l : Str) : Str := if l.getLast? = some '\r' then l.dropLast else l

def splitlinesL (s : Str) : List Str :=
  if s.isEmpty then []
  else
    let ps := (splitAllChar '\n' s).map stripCr
    if ps.getLast? = some [] then ps.dropLast else ps

/-- Normalized lines of one step file: `splitlines` then
`strip_timestamp` on each line (source lines 284–286). -/
def normLines (content : Str) : List Str :=
  (splitlinesL content).map strip_timestampL

def txtSuffix : Str := (".txt").data

/-- Name matches the glob `*.txt`. -/
def txtName (n : Str) : Bool := endsWithL txtSuffix n

/-- `re.match(r"^(\d+)_", name)`: the numeric prefix before an
underscore, as an integer. -/
def numPre (n : Str) : Option Nat :=
  let ds := n.takeWhile Char.isDigit
  if ds.isEmpty then none
  else
    match n.drop ds.length with
    | '_' :: _ => some (natOfDigits ds)
    | _ => none

/-! ### Job Summarizer: `summarize_job_directory` (source lines 256–375) -/

/-- Python's lexicographic string `<=` (by code point). -/
def strLe : Str → Str → Bool
  | [], _ => true
  | _ :: _, [] => false
  | x :: xs, y :: ys => if x = y then strLe xs ys else decide (x < y)

/-- The sort key `(x[0] if x[0] is not None else 9999, x[1].name)`,
compared as Python compares tuples. -/
def keyLe (a b : Nat × Str) : Bool :=
  if a.1 < b.1 then true
  else if a.1 = b.1 then strLe a.2 b.2
  else false

/-- Insertion sort; stable, like Python's `list.sort`. -/
def insSorted {α : Type} (le : α → α → Bool) (x : α) : List α → List α
  | [] => [x]
  | y :: ys => if le x y then x :: y :: ys else y :: insSorted le x ys

def insSort {α : Type} (le : α → α → Bool) : List α → List α
  | [] => []
  | x :: xs => insSorted le x (insSort le xs)

/-- The step-file discovery of `summarize_job_directory` (source lines
262–269): every `*.txt` file paired with its optional numeric prefix. -/
def stepTxtFiles (dir : MDir) : List (Option Nat × MFile) :=
  (dir.files.filter (fun f => txtName f.name)).map (fun f => (numPre f.name, f))

def stepFileLe (a b : Option Nat × MFile) : Bool :=
  keyLe (a.1.getD 9999, a.2.name) (b.1.getD 9999, b.2.name)

def sortedStepFiles (dir : MDir) : List (Option Nat × MFile) :=
  insSort stepFileLe (stepTxtFiles dir)

structure StepSum where
  num : Nat
  name : Str
  status : Status
  exit_code : Option Int
  root_cause : Option Str
deriving DecidableEq

/-- The per-step loop (source lines 280–302): ordinals come from the
numeric prefix when present, else from the auto counter, which continues
from the previous step's resolved ordinal; each step is normalized,
named, status-inferred and root-cause-scanned; all normalized lines are
concatenated in order. -/
def processSteps : List (Option Nat × MFile) → Nat → List StepSum × List Str
  | [], _ => ([], [])
  | (num, f) :: rest, auto =>
    let n := num.getD auto
    let stripped := normLines f.content
    let inf := infer_step_status stripped
    let tail := processSteps rest (n + 1)
    (⟨n, parse_step_name f.name stripped, inf.1, inf.2,
      extract_root_cause stripped⟩ :: tail.1,
     stripped ++ tail.2)

/-- The aggregate of step statuses (source lines 308–318): `failure` when
some step failed, else `success` when all steps succeeded, else
`unknown`. -/
def jobAggregate (sts : List Status) : Status :=
  if sts.any (fun s => s == Status.failure) then Status.failure
  else if sts.all (fun s => s == Status.success) then Status.success
  else Status.unknown

/-- `failing_steps.sort(key=lambda d: d["num"]); failing_steps[-1]`:
the stable sort puts the greatest ordinal last, ties resolved to the
latest occurrence, which is exactly this fold; `none` when the list is
empty (Python leaves `last_fail = None` then). -/
def maxFail : List StepSum → Option StepSum :=
  List.foldl (fun acc s =>
    match acc with
    | none => some s
    | some t => if t.num ≤ s.num then some s else some t) none

/-- The backfill step (source lines 322–330). -/
def backfillSteps (steps : List StepSum) (js : Status) (lf : Option StepSum) :
    List StepSum :=
  match js, lf with
  | Status.failure, some l =>
    steps.map (fun s =>
      if s.num < l.num ∧ s.status = Status.unknown
      then { s with status := Status.success } else s)
  | Status.success, _ =>
    steps.map (fun s =>
      if s.status = Status.unknown then { s with status := Status.success } else s)
  | _, _ => steps

def statusStr : Status → Str
  | Status.success => ("success").data
  | Status.failure => ("failure").data
  | Status.unknown => ("unknown").data

def noLogsText (name : Str) : Str :=
  ("Context: Job '").data ++ name ++ ("'. No step logs found.").data

/-- `summarize_job_directory` (source lines 256–375). -/
def summarize_job_directory (dir : MDir) : Str × Status :=
  let step_files := stepTxtFiles dir
  if step_files.isEmpty then (noLogsText dir.name, Status.unknown)
  else
    let sorted := insSort stepFileLe step_files
    let proc := processSteps sorted 1
    let stepSums := proc.1
    let all_lines := proc.2
    let meta := extract_basic_metadata all_lines
    let groups := parse_groups all_lines
    let test_cmds := extract_test_commands groups
    let failing := stepSums.filter (fun s => s.status == Status.failure)
    let job_status :=
      if failing.isEmpty then
        if stepSums.all (fun s => s.status == Status.success) then Status.success
        else Status.unknown
      else Status.failure
    let last_fail := maxFail failing
    let root_cause :=
      match last_fail with
      | some lf =>
        match lf.root_cause with
        | some rc => if rc.isEmpty then none else some rc
        | none => none
      | none => none
    let backfilled := backfillSteps stepSums job_status last_fail
    let ctx := ("Context: Job '").data ++ dir.name ++ ("'").data
    let bits1 : List Str :=
      if ¬ falsyS meta.runner_image then [("image ").data ++ meta.runner_image.getD []]
      else if ¬ falsyS meta.os_name then [meta.os_name.getD []]
      else []
    let bits2 := bits1 ++ (if ¬ falsyS meta.repo then [("repo ").data ++ meta.repo.getD []] else [])
    let bits3 := bits2 ++ (if ¬ falsyS meta.ref then [("ref ").data ++ meta.ref.getD []] else [])
    let ctxFull :=
      if bits3.isEmpty then ctx
      else ctx ++ (" (").data ++ joinWith ((", ").data) bits3 ++ (")").data
    let out2 : List Str :=
      [ctxFull] ++
      (if test_cmds.isEmpty then []
       else if test_cmds.length = 1 then [("Test command: ").data ++ test_cmds.headD []]
       else ("Test commands:").data :: test_cmds.map (fun c => ("  - ").data ++ c))
    let out3 := out2 ++
      (match job_status, last_fail with
       | Status.failure, some lf =>
         [("Result: job failed in step ").data ++ natToStr lf.num ++
          (" ('").data ++ lf.name ++ ("').").data]
       | js, _ =>
         if js == Status.success then [("Result: job succeeded.").data]
         else [("Result: job status unknown (no clear success/failure markers).").data])
    let out4 := out3 ++
      (match root_cause with
       | some rc => [("Likely root cause:").data, ("  ").data ++ rc]
       | none => [])
    let out5 := out4 ++ ("Step overview:").data ::
      (insSort (fun a b => decide (a.num ≤ b.num)) backfilled).map (fun s =>
        ("  - Step ").data ++ natToStr s.num ++ (": ").data ++ s.name ++
        (" [").data ++ statusStr s.status ++ ("]").data)
    (joinWith (['\n']) out5, job_status)

/-! ### Dataset Walker discovery: `process_dataset` (source lines 392–398)

Only the job-directory discovery decides which directories produce
output; the rest of `process_dataset` groups the discovered job
directories by parent and writes one summary per job plus one listing
per run. -/

/-- The qualification test of `process_dataset`:
`[p for p in d.glob("*.txt") if re.match(r"^(\d+)_", p.name)]` is
nonempty. -/
def discoverJobDirs (dirs : List MDir) : List MDir :=
  dirs.filter (fun d =>
    !((d.files.filter (fun f => txtName f.name)).filter
      (fun f => (numPre f.name).isSome)).isEmpty)

/-- Step statuses of a job, recomputed directly from the sorted step
files; used to state job-level claims independently of the summarizer's
internal step records. -/
def stepStatuses (dir : MDir) : List Status :=
  (sortedStepFiles dir).map (fun p => (infer_step_status (normLines p.2.content)).1)

/-- The `os_name` value the source's scan ends up with: the stripped
line following the last occurrence of the exact literal
`Operating System` that has a following line. -/
def osSpecLast (lines : List Str) : Option Str :=
  ((lines.zip lines.tail).filterMap
    (fun p => if p.1 = osLit then some (trimL p.2) else none)).getLast?

def dfltStep : StepSum := ⟨0, [], Status.unknown, none, none⟩

/-! ## Lemmas -/

theorem inferLine_ec (st : InferState) (l : Str) :
    (inferLine st l).ec =
      match findExit (trimL l) with
      | some n => some n
      | none => st.ec := by
  simp only [inferLine]
  cases findExit (trimL l) <;> dsimp only <;> split_ifs <;> rfl

theorem foldl_inferLine_ec (lines : List Str) (st : InferState) :
    (lines.foldl inferLine st).ec =
      match lines.reverse.findSome? (fun l => findExit (trimL l)) with
      | some n => some n
      | none => st.ec := by
  induction lines generalizing st with
  | nil => rfl
  | cons l ls ih =>
    simp only [List.foldl_cons, List.reverse_cons, List.findSome?_append]
    rw [ih]
    cases h : ls.reverse.findSome? (fun l => findExit (trimL l)) <;>
      simp [List.findSome?, inferLine_ec, Option.or] <;>
      cases findExit (trimL l) <;> rfl

/-! ## Claim theorems -/

/-- Claim C1, counterexample: the step
`["Process completed with exit code 0", "Process completed with exit
code 1"]` contains a line reporting an explicit exit code 0 (and the
literal text `Process completed with exit code 0`), yet
`infer_step_status` returns `failure`, because the scan keeps the code
of the *last* reporting line. -/
theorem infer_exit_counterexample :
    findExit (trimL (("Process completed with exit code 0").data)) = some 0 ∧
    infer_step_status
      [("Process completed with exit code 0").data,
       ("Process completed with exit code 1").data] = (Status.failure, some 1) ∧
    Status.failure ≠ Status.success := by decide

/-- Claim C1 (amended): when some line reports an explicit exit code,
the code retained is that of the last such line, and the returned status
is `success` iff that code is 0 and `failure` otherwise, regardless of
any error markers, failure phrases or success phrases anywhere in the
step. -/
theorem infer_last_exit_dominates (lines : List Str) (c : Int)
    (h : lastExit lines = some c) :
    infer_step_status lines =
      (if c = 0 then Status.success else Status.failure, some c) := by
  unfold lastExit at h
  unfold infer_step_status
  have hec := foldl_inferLine_ec lines ⟨none, false, false, false⟩
  rw [h] at hec
  simp only [hec]

/-- Claim C1, witness: a step with a failure phrase whose last (only)
exit-code line reports 0 is inferred `success`. -/
theorem infer_last_exit_dominates_witness :
    infer_step_status
      [("Tests failed").data, ("Process completed with exit code 0").data]
      = (Status.success, some 0) := by
  have h := infer_last_exit_dominates
    [("Tests failed").data, ("Process completed with exit code 0").data] 0 (by decide)
  simpa using h

theorem filter_isEmpty_eq_not_any {α : Type} (p : α → Bool) (l : List α) :
    (l.filter p).isEmpty = !(l.any p) := by
  induction l with
  | nil => rfl
  | cons a t ih => cases h : p a <;> simp [List.filter_cons, h, ih]

theorem any_map_het {α β : Type} (f : α → β) (p : β → Bool) (l : List α) :
    (l.map f).any p = l.any (fun a => p (f a)) := by
  induction l <;> simp_all

theorem all_map_het {α β : Type} (f : α → β) (p : β → Bool) (l : List α) :
    (l.map f).all p = l.all (fun a => p (f a)) := by
  induction l <;> simp_all

theorem aggregate_via_filter (steps : List StepSum) :
    (if (steps.filter (fun s => s.status == Status.failure)).isEmpty then
       (if steps.all (fun s => s.status == Status.success) then Status.success
        else Status.unknown)
     else Status.failure)
    = jobAggregate (steps.map (fun s => s.status)) := by
  rw [filter_isEmpty_eq_not_any]
  unfold jobAggregate
  simp only [any_map_het, all_map_het]
  cases h : steps.any (fun s => s.status == Status.failure) <;> simp [h]

theorem processSteps_statuses (files : List (Option Nat × MFile)) (auto : Nat) :
    (processSteps files auto).1.map (fun s => s.status)
      = files.map (fun p => (infer_step_status (normLines p.2.content)).1) := by
  induction files generalizing auto with
  | nil => rfl
  | cons f rest ih =>
    cases f with
    | mk num file => simp [processSteps, ih]

theorem summarize_snd (dir : MDir) (h : (stepTxtFiles dir).isEmpty = false) :
    (summarize_job_directory dir).2 = jobAggregate (stepStatuses dir) := by
  unfold summarize_job_directory
  simp only [h, Bool.false_eq_true, if_false]
  rw [aggregate_via_filter, processSteps_statuses]
  rfl

theorem jobAggregate_cases (sts : List Status) :
    (jobAggregate sts = Status.failure ↔ ∃ s ∈ sts, s = Status.failure)
    ∧ ((¬ ∃ s ∈ sts, s = Status.failure) →
        ((jobAggregate sts = Status.success ↔ ∀ s ∈ sts, s = Status.success)
         ∧ ((¬ ∀ s ∈ sts, s = Status.success) → jobAggregate sts = Status.unknown))) := by
  unfold jobAggregate
  cases h1 : sts.any (fun s => s == Status.failure) <;>
    cases h2 : sts.all (fun s => s == Status.success) <;>
    simp_all [List.any_eq_true, List.all_eq_true] <;>
    first
      | exact fun hm => h1 _ hm rfl
      | exact ⟨fun hm => h1 _ hm rfl, fun _ => h2⟩

/-- Claim C7: the job-level status returned by `summarize_job_directory`
is the pre-backfill aggregate of the steps' originally inferred
statuses; the backfill upgrade affects only the rendered step overview,
never the returned verdict. -/
theorem summarize_status_prebackfill (dir : MDir) (h : stepTxtFiles dir ≠ []) :
    (summarize_job_directory dir).2 = jobAggregate (stepStatuses dir) := by
  refine summarize_snd dir ?_
  cases hb : (stepTxtFiles dir).isEmpty
  · rfl
  · exact absurd (List.isEmpty_iff.mp hb) h

/-- Claim C7, witness at a one-step job whose step is inferred `failure`
but whose rendered overview is backfilled. -/
theorem summarize_status_prebackfill_witness :
    (summarize_job_directory
      ⟨("j").data, [⟨("1_a.txt").data, ("Tests failed").data⟩]⟩).2
      = jobAggregate (stepStatuses
          ⟨("j").data, [⟨("1_a.txt").data, ("Tests failed").data⟩]⟩) :=
  summarize_status_prebackfill _ (by decide)

/-- Claim C2: for a job with at least one step, the aggregate status
computed by `summarize_job_directory` is `failure` iff some step's
status is `failure`; otherwise `success` iff all steps' statuses are
`success`; otherwise `unknown`. -/
theorem summarize_status_iff (dir : MDir) (h : stepTxtFiles dir ≠ []) :
    ((summarize_job_directory dir).2 = Status.failure ↔
        ∃ st ∈ stepStatuses dir, st = Status.failure)
    ∧ ((¬ ∃ st ∈ stepStatuses dir, st = Status.failure) →
        (((summarize_job_directory dir).2 = Status.success ↔
            ∀ st ∈ stepStatuses dir, st = Status.success)
         ∧ ((¬ ∀ st ∈ stepStatuses dir, st = Status.success) →
            (summarize_job_directory dir).2 = Status.unknown))) := by
  have hs : (summarize_job_directory dir).2 = jobAggregate (stepStatuses dir) := by
    refine summarize_snd dir ?_
    cases hb : (stepTxtFiles dir).isEmpty
    · rfl
    · exact absurd (List.isEmpty_iff.mp hb) h
  rw [hs]
  exact jobAggregate_cases (stepStatuses dir)

/-- Claim C2, witness: a job with one failing step aggregates to
`failure`. -/
theorem summarize_status_iff_witness :
    (summarize_job_directory
      ⟨("j").data, [⟨("1_a.txt").data, ("BUILD FAILED").data⟩]⟩).2
      = Status.failure :=
  (summarize_status_iff _ (by decide)).1.mpr ⟨Status.failure, by decide, rfl⟩

theorem maxFail_aux (l : List StepSum) (m : StepSum) :
    ∃ m', List.foldl (fun acc s =>
        match acc with
        | none => some s
        | some t => if t.num ≤ s.num then some s else some t) (some m) l = some m'
      ∧ (m' = m ∨ m' ∈ l) ∧ m.num ≤ m'.num ∧ ∀ s ∈ l, s.num ≤ m'.num := by
  induction l generalizing m with
  | nil => exact ⟨m, rfl, Or.inl rfl, le_refl _, by simp⟩
  | cons s t ih =>
    simp only [List.foldl_cons]
    by_cases h : m.num ≤ s.num
    · rw [if_pos h]
      obtain ⟨m', hf, hm, hle, hall⟩ := ih s
      refine ⟨m', hf, Or.inr ?_, le_trans h hle, ?_⟩
      · cases hm with
        | inl e => exact e ▸ List.mem_cons_self s t
        | inr e => exact List.mem_cons_of_mem s e
      · intro x hx
        cases List.mem_cons.mp hx with
        | inl e => exact e ▸ hle
        | inr e => exact hall x e
    · rw [if_neg h]
      obtain ⟨m', hf, hm, hle, hall⟩ := ih m
      refine ⟨m', hf, ?_, hle, ?_⟩
      · cases hm with
        | inl e => exact Or.inl e
        | inr e => exact Or.inr (List.mem_cons_of_mem s e)
      · intro x hx
        cases List.mem_cons.mp hx with
        | inl e =>
          subst e
          exact le_trans (le_of_lt (Nat.lt_of_not_le h)) hle
        | inr e => exact hall x e

theorem maxFail_spec (l : List StepSum) (h : l ≠ []) :
    ∃ m, maxFail l = some m ∧ m ∈ l ∧ ∀ s ∈ l, s.num ≤ m.num := by
  cases l with
  | nil => exact absurd rfl h
  | cons a t =>
    unfold maxFail
    simp only [List.foldl_cons]
    obtain ⟨m', hf, hm, hle, hall⟩ := maxFail_aux t a
    refine ⟨m', hf, ?_, ?_⟩
    · cases hm with
      | inl e => exact e ▸ List.mem_cons_self a t
      | inr e => exact List.mem_cons_of_mem a e
    · intro s hs
      cases List.mem_cons.mp hs with
      | inl e => exact e ▸ hle
      | inr e => exact hall s e

theorem backfill_frame_map (steps : List StepSum) (f : StepSum → StepSum)
    (hf : ∀ s, f s = s ∨
      (s.status = Status.unknown ∧ f s = { s with status := Status.success }))
    (i : Nat) :
    (steps.map f).getD i dfltStep = steps.getD i dfltStep
    ∨ ((steps.getD i dfltStep).status = Status.unknown ∧
       (steps.map f).getD i dfltStep
         = { steps.getD i dfltStep with status := Status.success }) := by
  rw [List.getD_eq_getElem?_getD, List.getD_eq_getElem?_getD, List.getElem?_map]
  cases hsi : steps[i]? with
  | none => exact Or.inl rfl
  | some s => simpa using hf s

/-- Claim C3: the backfill step of `summarize_job_directory` upgrades
exactly these statuses: if the aggregate is `failure`, every step with
ordinal strictly below the last failing step's ordinal and status
`unknown` becomes `success`; if the aggregate is `success`, every
`unknown` step becomes `success`; if the aggregate is `unknown`, nothing
changes; and in all cases a step is either left unchanged or upgraded
from `unknown` to `success` (never changed to `failure`, and `success`
or `failure` steps are never changed). -/
theorem backfill_spec (steps : List StepSum) :
    (jobAggregate (steps.map (fun s => s.status)) = Status.failure →
      ∃ m, (m ∈ steps ∧ m.status = Status.failure)
        ∧ (∀ s ∈ steps, s.status = Status.failure → s.num ≤ m.num)
        ∧ backfillSteps steps (jobAggregate (steps.map (fun s => s.status)))
            (maxFail (steps.filter (fun s => s.status == Status.failure)))
          = steps.map (fun s =>
              if s.num < m.num ∧ s.status = Status.unknown
              then { s with status := Status.success } else s))
    ∧ (jobAggregate (steps.map (fun s => s.status)) = Status.success →
        backfillSteps steps (jobAggregate (steps.map (fun s => s.status)))
            (maxFail (steps.filter (fun s => s.status == Status.failure)))
          = steps.map (fun s =>
              if s.status = Status.unknown
              then { s with status := Status.success } else s))
    ∧ (jobAggregate (steps.map (fun s => s.status)) = Status.unknown →
        backfillSteps steps (jobAggregate (steps.map (fun s => s.status)))
            (maxFail (steps.filter (fun s => s.status == Status.failure)))
          = steps)
    ∧ (∀ (js : Status) (lf : Option StepSum) (i : Nat),
        (backfillSteps steps js lf).getD i dfltStep = steps.getD i dfltStep
        ∨ ((steps.getD i dfltStep).status = Status.unknown ∧
           (backfillSteps steps js lf).getD i dfltStep
             = { steps.getD i dfltStep with status := Status.success })) := by
  refine ⟨?_, ?_, ?_, ?_⟩
  · intro h
    have hex : ∃ s ∈ steps, s.status = Status.failure := by
      have hx := (jobAggregate_cases (steps.map (fun s => s.status))).1.mp h
      obtain ⟨st, hmem, he⟩ := hx
      rw [List.mem_map] at hmem
      obtain ⟨s, hs, rfl⟩ := hmem
      exact ⟨s, hs, he⟩
    have hne : steps.filter (fun s => s.status == Status.failure) ≠ [] := by
      obtain ⟨s, hs, he⟩ := hex
      intro hnil
      have hmem : s ∈ steps.filter (fun s => s.status == Status.failure) :=
        List.mem_filter.mpr ⟨hs, by simp [he]⟩
      rw [hnil] at hmem
      exact absurd hmem (List.not_mem_nil s)
    obtain ⟨m, hmf, hmem, hall⟩ := maxFail_spec _ hne
    have hm2 := List.mem_filter.mp hmem
    refine ⟨m, ⟨hm2.1, by simpa using hm2.2⟩, ?_, ?_⟩
    · intro s hs hstat
      exact hall s (List.mem_filter.mpr ⟨hs, by simp [hstat]⟩)
    · rw [h, hmf]
      rfl
  · intro h
    rw [h]
    cases maxFail (steps.filter (fun s => s.status == Status.failure)) <;> rfl
  · intro h
    rw [h]
    cases maxFail (steps.filter (fun s => s.status == Status.failure)) <;> rfl
  · intro js lf i
    cases js with
    | failure =>
      cases lf with
      | none => exact Or.inl rfl
      | some l =>
        dsimp only [backfillSteps]
        refine backfill_frame_map steps _ ?_ i
        intro s
        by_cases hc : s.num < l.num ∧ s.status = Status.unknown
        · exact Or.inr ⟨hc.2, by simp [hc]⟩
        · exact Or.inl (by simp [hc])
    | success =>
      cases lf <;>
        · dsimp only [backfillSteps]
          refine backfill_frame_map steps _ ?_ i
          intro s
          by_cases hc : s.status = Status.unknown
          · exact Or.inr ⟨hc, by simp [hc]⟩
          · exact Or.inl (by simp [hc])
    | unknown => exact Or.inl rfl

/-- Claim C3, witness: a one-step all-`unknown` job has aggregate
`unknown` and its backfill changes nothing. -/
theorem backfill_spec_witness :
    backfillSteps [⟨1, [], Status.unknown, none, none⟩]
        (jobAggregate (([⟨1, [], Status.unknown, none, none⟩] : List StepSum).map
          (fun s => s.status)))
        (maxFail (([⟨1, [], Status.unknown, none, none⟩] : List StepSum).filter
          (fun s => s.status == Status.failure)))
      = [⟨1, [], Status.unknown, none, none⟩] :=
  (backfill_spec [⟨1, [], Status.unknown, none, none⟩]).2.2.1 (by decide)

theorem rcScan_none_iff (lines : List Str) :
    ∀ n, (rcScan lines n = none ↔
      ∀ i, i < n → isMarkerLine (lines.getD i []) = false) := by
  intro n
  induction n with
  | zero =>
    constructor
    · intro _ i hi
      exact absurd hi (Nat.not_lt_zero i)
    · intro _
      rfl
  | succ n ih =>
    by_cases h : isMarkerLine (lines.getD n []) = true
    · simp only [rcScan, h, if_true]
      constructor
      · intro hc
        exact absurd hc (by simp)
      · intro hall
        have hfalse := hall n (Nat.lt_succ_self n)
        rw [h] at hfalse
        exact absurd hfalse (by decide)
    · have hf : isMarkerLine (lines.getD n []) = false := by
        cases hb : isMarkerLine (lines.getD n [])
        · rfl
        · exact absurd hb h
      simp only [rcScan, hf, Bool.false_eq_true, if_false]
      rw [ih]
      constructor
      · intro hall i hi
        cases Nat.lt_succ_iff_lt_or_eq.mp hi with
        | inl hlt => exact hall i hlt
        | inr he => exact he ▸ hf
      · intro hall i hi
        exact hall i (Nat.lt_succ_of_lt hi)

theorem rcScan_last (lines : List Str) (i : Nat) :
    ∀ n, i < n → isMarkerLine (lines.getD i []) = true →
      (∀ j, i < j → j < n → isMarkerLine (lines.getD j []) = false) →
      rcScan lines n = some i := by
  intro n
  induction n with
  | zero => intro h; exact absurd h (Nat.not_lt_zero i)
  | succ n ih =>
    intro hin hmi hj
    by_cases hn : i = n
    · subst hn
      simp only [rcScan, hmi, if_true]
    · have hlt : i < n := by omega
      have hmn : isMarkerLine (lines.getD n []) = false :=
        hj n hlt (Nat.lt_succ_self n)
      simp only [rcScan, hmn, Bool.false_eq_true, if_false]
      exact ih hlt hmi (fun j hij hjn => hj j hij (Nat.lt_succ_of_lt hjn))

theorem rcFollow_eq (k : Nat) : ∀ (lines : List Str) (j : Nat),
    rcFollow lines j k
      = (((lines.drop j).take k).takeWhile (fun l => !(trimL l).isEmpty)).map trimL := by
  induction k with
  | zero =>
    intro lines j
    simp [rcFollow]
  | succ k ih =>
    intro lines j
    by_cases hj : j < lines.length
    · have hg : lines.getD j [] = lines[j] := List.getD_eq_getElem lines [] hj
      rw [List.drop_eq_getElem_cons hj, List.take_succ_cons, List.takeWhile_cons]
      unfold rcFollow
      rw [if_pos hj]
      dsimp only
      rw [hg]
      by_cases he : (trimL lines[j]).isEmpty = true
      · rw [if_pos he, if_neg (by simp [he])]
        rfl
      · rw [if_neg he, if_pos (by simp [he] : (!(trimL lines[j]).isEmpty) = true),
          List.map_cons, ih]
    · have hle : lines.length ≤ j := Nat.le_of_not_lt hj
      rw [List.drop_eq_nil_of_le hle]
      unfold rcFollow
      rw [if_neg hj]
      simp

theorem forall_mem_iff_getD (lines : List Str) (p : Str → Prop) :
    (∀ l ∈ lines, p l) ↔ ∀ i, i < lines.length → p (lines.getD i []) := by
  constructor
  · intro h i hi
    rw [List.getD_eq_getElem lines [] hi]
    exact h _ (List.getElem_mem hi)
  · intro h l hl
    obtain ⟨i, hi, rfl⟩ := List.mem_iff_getElem.mp hl
    have hp := h i hi
    rwa [List.getD_eq_getElem lines [] hi] at hp

/-- Claim C6: `extract_root_cause` returns no value exactly when no line
contains a failure marker, and otherwise returns the snippet built at
the most recent (highest-index) marker line: that line plus up to five
following lines, stripped, stopping at the first blank line, joined with
single spaces, with whitespace runs collapsed. -/
theorem root_cause_spec (lines : List Str) :
    (extract_root_cause lines = none ↔ ∀ l ∈ lines, isMarkerLine l = false)
    ∧ (∀ i, i < lines.length → isMarkerLine (lines.getD i []) = true →
        (∀ j, i < j → j < lines.length → isMarkerLine (lines.getD j []) = false) →
        extract_root_cause lines = some (collapseWs (joinWith ([' '])
          (trimL (lines.getD i []) ::
           (((lines.drop (i + 1)).take 5).takeWhile
             (fun l => !(trimL l).isEmpty)).map trimL)))) := by
  constructor
  · constructor
    · intro hn
      cases hs : rcScan lines lines.length with
      | some i =>
        unfold extract_root_cause at hn
        rw [hs] at hn
        exact absurd hn (by simp)
      | none =>
        have hfa := (rcScan_none_iff lines lines.length).mp hs
        rw [forall_mem_iff_getD]
        exact hfa
    · intro hall
      have hs : rcScan lines lines.length = none :=
        (rcScan_none_iff lines lines.length).mpr
          ((forall_mem_iff_getD lines _).mp hall)
      unfold extract_root_cause
      rw [hs]
  · intro i hi hm hj
    have hs : rcScan lines lines.length = some i :=
      rcScan_last lines i lines.length hi hm hj
    unfold extract_root_cause
    rw [hs]
    dsimp only
    unfold rcBlock
    rw [rcFollow_eq]

/-- Claim C6, witness: with markers at indices 1 and 2, the captured
block starts at index 2 (the most recent). -/
theorem root_cause_spec_witness :
    extract_root_cause
      [("ok").data, ("Error: first").data, ("Error: second").data, ("tail").data]
      = some (("Error: second tail").data) := by
  have h := (root_cause_spec
      [("ok").data, ("Error: first").data, ("Error: second").data, ("tail").data]).2
    2 (by decide) (by decide)
    (by
      intro j h1 h2
      have h4 : j < 4 := by simpa using h2
      have h3 : j = 3 := by omega
      subst h3
      decide)
  rw [h]
  decide

theorem parse_groups_aux_names (N : Str → Prop) :
    ∀ (ls : List Str) (cur : Option GroupBlock),
      (∀ c, cur = some c → N c.name) →
      (∀ l ∈ ls, isPre groupStartMark l = true →
        N (trimL (l.drop groupStartMark.length))) →
      ∀ g ∈ parse_groups_aux cur ls, N g.name := by
  intro ls
  induction ls with
  | nil =>
    intro cur hcur _ g hg
    cases cur with
    | none => simp [parse_groups_aux] at hg
    | some c =>
      simp only [parse_groups_aux, List.mem_singleton] at hg
      exact hg ▸ hcur c rfl
  | cons l t ih =>
    intro cur hcur hls g hg
    unfold parse_groups_aux at hg
    by_cases hstart : isPre groupStartMark l = true
    · rw [if_pos hstart] at hg
      have hnew : ∀ c, some (⟨trimL (l.drop groupStartMark.length), []⟩ : GroupBlock)
          = some c → N c.name := by
        intro c hc
        cases hc
        exact hls l (List.mem_cons_self l t) hstart
      have htail : ∀ l' ∈ t, isPre groupStartMark l' = true →
          N (trimL (l'.drop groupStartMark.length)) :=
        fun l' hl' => hls l' (List.mem_cons_of_mem l hl')
      cases cur with
      | some c =>
        dsimp only at hg
        cases List.mem_cons.mp hg with
        | inl e => exact e ▸ hcur c rfl
        | inr e => exact ih _ hnew htail g e
      | none =>
        dsimp only at hg
        exact ih _ hnew htail g hg
    · rw [if_neg hstart] at hg
      have htail : ∀ l' ∈ t, isPre groupStartMark l' = true →
          N (trimL (l'.drop groupStartMark.length)) :=
        fun l' hl' => hls l' (List.mem_cons_of_mem l hl')
      by_cases hend : isPre groupEndMark l = true
      · rw [if_pos hend] at hg
        cases cur with
        | some c =>
          dsimp only at hg
          cases List.mem_cons.mp hg with
          | inl e => exact e ▸ hcur c rfl
          | inr e => exact ih _ (fun c hc => Option.noConfusion hc) htail g e
        | none =>
          dsimp only at hg
          exact ih _ (fun c hc => Option.noConfusion hc) htail g hg
      · rw [if_neg hend] at hg
        cases cur with
        | some c =>
          dsimp only at hg
          refine ih _ ?_ htail g hg
          intro c' hc'
          cases hc'
          exact hcur c rfl
        | none =>
          dsimp only at hg
          exact ih _ (fun c hc => Option.noConfusion hc) htail g hg

theorem parse_groups_aux_bodies (B : Str → Prop) :
    ∀ (ls : List Str) (cur : Option GroupBlock),
      (∀ c, cur = some c → ∀ b ∈ c.body, B b) →
      (∀ l ∈ ls, isPre groupStartMark l = false → isPre groupEndMark l = false → B l) →
      ∀ g ∈ parse_groups_aux cur ls, ∀ b ∈ g.body, B b := by
  intro ls
  induction ls with
  | nil =>
    intro cur hcur _ g hg
    cases cur with
    | none => simp [parse_groups_aux] at hg
    | some c =>
      simp only [parse_groups_aux, List.mem_singleton] at hg
      exact hg ▸ hcur c rfl
  | cons l t ih =>
    intro cur hcur hls g hg
    unfold parse_groups_aux at hg
    have htail : ∀ l' ∈ t, isPre groupStartMark l' = false →
        isPre groupEndMark l' = false → B l' :=
      fun l' hl' => hls l' (List.mem_cons_of_mem l hl')
    by_cases hstart : isPre groupStartMark l = true
    · rw [if_pos hstart] at hg
      have hnew : ∀ c, some (⟨trimL (l.drop groupStartMark.length), []⟩ : GroupBlock)
          = some c → ∀ b ∈ c.body, B b := by
        intro c hc
        cases hc
        intro b hb
        exact absurd hb (List.not_mem_nil b)
      cases cur with
      | some c =>
        dsimp only at hg
        cases List.mem_cons.mp hg with
        | inl e => exact e ▸ hcur c rfl
        | inr e => exact ih _ hnew htail g e
      | none =>
        dsimp only at hg
        exact ih _ hnew htail g hg
    · rw [if_neg hstart] at hg
      by_cases hend : isPre groupEndMark l = true
      · rw [if_pos hend] at hg
        cases cur with
        | some c =>
          dsimp only at hg
          cases List.mem_cons.mp hg with
          | inl e => exact e ▸ hcur c rfl
          | inr e => exact ih _ (fun c hc => Option.noConfusion hc) htail g e
        | none =>
          dsimp only at hg
          exact ih _ (fun c hc => Option.noConfusion hc) htail g hg
      · rw [if_neg hend] at hg
        cases cur with
        | some c =>
          dsimp only at hg
          refine ih _ ?_ htail g hg
          intro c' hc'
          cases hc'
          intro b hb
          rw [List.mem_append] at hb
          cases hb with
          | inl hb' => exact hcur c rfl b hb'
          | inr hb' =>
            rw [List.mem_singleton] at hb'
            rw [hb']
            exact hls l (List.mem_cons_self l t) (by simpa using hstart)
              (by simpa using hend)
        | none =>
          dsimp only at hg
          exact ih _ (fun c hc => Option.noConfusion hc) htail g hg

theorem parse_groups_aux_sublist :
    ∀ (ls : List Str) (cur : Option GroupBlock),
      (((parse_groups_aux cur ls).map GroupBlock.body).flatten).Sublist
        ((match cur with | some c => c.body | none => []) ++ ls) := by
  intro ls
  induction ls with
  | nil =>
    intro cur
    cases cur with
    | none => simp [parse_groups_aux]
    | some c =>
      simp only [parse_groups_aux, List.map_cons, List.map_nil, List.flatten_cons,
        List.flatten_nil]
      simpa using List.sublist_append_left c.body []
  | cons l t ih =>
    intro cur
    unfold parse_groups_aux
    by_cases hstart : isPre groupStartMark l = true
    · rw [if_pos hstart]
      cases cur with
      | some c =>
        dsimp only
        simp only [List.map_cons, List.flatten_cons]
        refine List.Sublist.append_left ?_ c.body
        have h := ih (some ⟨trimL (l.drop groupStartMark.length), []⟩)
        dsimp only at h
        exact h.trans (List.sublist_cons_self l t)
      | none =>
        dsimp only
        have h := ih (some ⟨trimL (l.drop groupStartMark.length), []⟩)
        dsimp only at h
        exact h.trans (List.sublist_cons_self l t)
    · rw [if_neg hstart]
      by_cases hend : isPre groupEndMark l = true
      · rw [if_pos hend]
        cases cur with
        | some c =>
          dsimp only
          simp only [List.map_cons, List.flatten_cons]
          refine List.Sublist.append_left ?_ c.body
          have h := ih none
          dsimp only at h
          exact h.trans (List.sublist_cons_self l t)
        | none =>
          dsimp only
          have h := ih none
          dsimp only at h
          exact h.trans (List.sublist_cons_self l t)
      · rw [if_neg hend]
        cases cur with
        | some c =>
          dsimp only
          have h := ih (some ⟨c.name, c.body ++ [l]⟩)
          dsimp only at h
          rw [List.append_assoc, List.singleton_append] at h
          exact h
        | none =>
          dsimp only
          have h := ih none
          dsimp only at h
          exact h.trans (List.sublist_cons_self l t)

/-- Claim C9: every block emitted by `parse_groups` is named from a
group-start marker line of the input, no line in any emitted body is a
group-start or group-end marker line (and every body line is an input
line), and the bodies in emission order form a subsequence of the input
lines in their original order. -/
theorem parse_groups_invariants (lines : List Str) :
    (∀ g ∈ parse_groups lines, ∃ l ∈ lines, isPre groupStartMark l = true ∧
        g.name = trimL (l.drop groupStartMark.length))
    ∧ (∀ g ∈ parse_groups lines, ∀ b ∈ g.body,
        isPre groupStartMark b = false ∧ isPre groupEndMark b = false ∧ b ∈ lines)
    ∧ (((parse_groups lines).map GroupBlock.body).flatten).Sublist lines := by
  refine ⟨?_, ?_, ?_⟩
  · intro g hg
    have h := parse_groups_aux_names
      (fun n => ∃ l ∈ lines, isPre groupStartMark l = true ∧
        n = trimL (l.drop groupStartMark.length))
      lines none (fun c hc => Option.noConfusion hc)
      (fun l hl hs => ⟨l, hl, hs, rfl⟩) g hg
    exact h
  · intro g hg
    have h := parse_groups_aux_bodies
      (fun b => isPre groupStartMark b = false ∧ isPre groupEndMark b = false ∧
        b ∈ lines)
      lines none (fun c hc => Option.noConfusion hc)
      (fun l hl hs he => ⟨hs, he, hl⟩) g hg
    exact h
  · have h := parse_groups_aux_sublist lines none
    dsimp only at h
    simpa using h

/-- Claim C9, witness: the body subsequence property at a concrete
input. -/
theorem parse_groups_invariants_witness :
    (((parse_groups
        [("##[group]build").data, ("a").data, ("##[endgroup]").data, ("b").data]).map
      GroupBlock.body).flatten).Sublist
      [("##[group]build").data, ("a").data, ("##[endgroup]").data, ("b").data] :=
  (parse_groups_invariants
    [("##[group]build").data, ("a").data, ("##[endgroup]").data, ("b").data]).2.2

/-- Claim C8, counterexample: a directory whose only file is
`1_step.log` contains a file whose name matches `<digits>_<anything>`,
yet `process_dataset`'s discovery skips it, because the glob only
considers `*.txt` entries. -/
theorem discover_counterexample :
    discoverJobDirs [⟨("run/job").data, [⟨("1_step.log").data, []⟩]⟩] = []
    ∧ (([⟨("1_step.log").data, []⟩] : List MFile).any
        (fun f => (numPre f.name).isSome)) = true := by decide

/-- Claim C8 (amended): `process_dataset` treats a directory as a job
directory exactly when it contains at least one `*.txt` file whose name
has a `<digits>_` prefix; directories with no such file are skipped. -/
theorem discover_amended (dirs : List MDir) (d : MDir) :
    d ∈ discoverJobDirs dirs ↔
      d ∈ dirs ∧ d.files.any (fun f => txtName f.name && (numPre f.name).isSome) = true := by
  have hc : (!((d.files.filter (fun f => txtName f.name)).filter
        (fun f => (numPre f.name).isSome)).isEmpty)
      = d.files.any (fun f => txtName f.name && (numPre f.name).isSome) := by
    rw [List.filter_filter, filter_isEmpty_eq_not_any, Bool.not_not]
    congr 1
    funext f
    exact Bool.and_comm _ _
  unfold discoverJobDirs
  rw [List.mem_filter, hc]

/-- Claim C10, counterexample: a job directory whose only file is
`readme.txt` contains no file matching the `<digits>_` step pattern,
yet `summarize_job_directory` does not return the "No step logs found"
message: it summarizes the file as an auto-numbered step. -/
theorem no_logs_counterexample :
    (∀ f ∈ ([⟨("readme.txt").data, []⟩] : List MFile), numPre f.name = none)
    ∧ summarize_job_directory ⟨("job").data, [⟨("readme.txt").data, []⟩]⟩
      = (("Context: Job 'job'\nResult: job status unknown (no clear success/failure markers).\nStep overview:\n  - Step 1: readme [unknown]").data,
         Status.unknown)
    ∧ ("Context: Job 'job'\nResult: job status unknown (no clear success/failure markers).\nStep overview:\n  - Step 1: readme [unknown]").data
      ≠ noLogsText (("job").data) := by decide

/-- Claim C10 (amended): for a job directory with no `*.txt` files at
all, `summarize_job_directory` returns exactly the text
`Context: Job '<name>'. No step logs found.` paired with status
`unknown`. -/
theorem no_logs_amended (dir : MDir)
    (h : dir.files.filter (fun f => txtName f.name) = []) :
    summarize_job_directory dir = (noLogsText dir.name, Status.unknown) := by
  unfold summarize_job_directory stepTxtFiles
  rw [h]
  rfl

/-- Claim C10, witness: a directory with a single non-`.txt` file gets
the "No step logs found" message. -/
theorem no_logs_amended_witness :
    summarize_job_directory ⟨("job").data, [⟨("notes.md").data, []⟩]⟩
      = (noLogsText (("job").data), Status.unknown) :=
  no_logs_amended ⟨("job").data, [⟨("notes.md").data, []⟩]⟩ (by decide)

theorem mlJda_id (st : MetaState) (l : Str) (h : falsyS st.repo = false) :
    mlJda st l = st := by
  simp [mlJda, h]

theorem mlRepo_id (st : MetaState) (l : Str) (h : falsyS st.repo = false) :
    mlRepo st l = st := by
  simp [mlRepo, h]

theorem mlRef_repo (st : MetaState) (l : Str) : (mlRef st l).repo = st.repo := by
  unfold mlRef
  dsimp only
  split_ifs <;> rfl

theorem mlOs_repo (st : MetaState) (l : Str) (next : Option Str) :
    (mlOs st l next).repo = st.repo := by
  unfold mlOs
  cases next
  · rfl
  · dsimp only
    split_ifs <;> rfl

theorem mlImg1_repo (st : MetaState) (l : Str) : (mlImg1 st l).repo = st.repo := by
  unfold mlImg1
  split_ifs <;> rfl

theorem mlImg2_repo (st : MetaState) (l : Str) : (mlImg2 st l).repo = st.repo := by
  unfold mlImg2
  split_ifs with h
  · cases imageTokenScan l <;> rfl
  · rfl

theorem metaLine_repo_keep (st : MetaState) (l : Str) (next : Option Str)
    (h : falsyS st.repo = false) : (metaLine st l next).repo = st.repo := by
  unfold metaLine
  rw [mlImg2_repo, mlImg1_repo, mlOs_repo, mlRef_repo, mlJda_id st l h,
    mlRepo_id st l h]

theorem extractMetaAux_repo_keep (lines : List Str) :
    ∀ (st : MetaState), falsyS st.repo = false →
      (extractMetaAux st lines).repo = st.repo := by
  induction lines with
  | nil =>
    intro st _
    rfl
  | cons l t ih =>
    intro st h
    unfold extractMetaAux
    have hk := metaLine_repo_keep st l t.head? h
    have hf : falsyS (metaLine st l t.head?).repo = false := by
      rw [hk]
      exact h
    rw [ih _ hf, hk]

theorem mlJda_runner (st : MetaState) (l : Str) :
    (mlJda st l).runner_image = st.runner_image := by
  unfold mlJda
  dsimp only
  split_ifs <;> rfl

theorem mlRepo_runner (st : MetaState) (l : Str) :
    (mlRepo st l).runner_image = st.runner_image := by
  unfold mlRepo
  split_ifs <;> rfl

theorem mlRef_runner (st : MetaState) (l : Str) :
    (mlRef st l).runner_image = st.runner_image := by
  unfold mlRef
  dsimp only
  split_ifs <;> rfl

theorem mlOs_runner (st : MetaState) (l : Str) (next : Option Str) :
    (mlOs st l next).runner_image = st.runner_image := by
  unfold mlOs
  cases next
  · rfl
  · dsimp only
    split_ifs <;> rfl

theorem mlImg1_id (st : MetaState) (l : Str) (h : falsyS st.runner_image = false) :
    mlImg1 st l = st := by
  simp [mlImg1, h]

theorem mlImg2_id (st : MetaState) (l : Str) (h : falsyS st.runner_image = false) :
    mlImg2 st l = st := by
  simp [mlImg2, h]

theorem metaLine_runner_keep (st : MetaState) (l : Str) (next : Option Str)
    (h : falsyS st.runner_image = false) :
    (metaLine st l next).runner_image = st.runner_image := by
  unfold metaLine
  have h4 : (mlOs (mlRef (mlRepo (mlJda st l) l) l) l next).runner_image
      = st.runner_image := by
    rw [mlOs_runner, mlRef_runner, mlRepo_runner, mlJda_runner]
  have hf : falsyS (mlOs (mlRef (mlRepo (mlJda st l) l) l) l next).runner_image
      = false := by
    rw [h4]
    exact h
  rw [mlImg2_id _ _ (by rw [mlImg1_id _ _ hf]; exact hf), mlImg1_id _ _ hf, h4]

theorem extractMetaAux_runner_keep (lines : List Str) :
    ∀ (st : MetaState), falsyS st.runner_image = false →
      (extractMetaAux st lines).runner_image = st.runner_image := by
  induction lines with
  | nil =>
    intro st _
    rfl
  | cons l t ih =>
    intro st h
    unfold extractMetaAux
    have hk := metaLine_runner_keep st l t.head? h
    have hf : falsyS (metaLine st l t.head?).runner_image = false := by
      rw [hk]
      exact h
    rw [ih _ hf, hk]

theorem mlJda_os (st : MetaState) (l : Str) : (mlJda st l).os_name = st.os_name := by
  unfold mlJda
  dsimp only
  split_ifs <;> rfl

theorem mlRepo_os (st : MetaState) (l : Str) : (mlRepo st l).os_name = st.os_name := by
  unfold mlRepo
  split_ifs <;> rfl

theorem mlRef_os (st : MetaState) (l : Str) : (mlRef st l).os_name = st.os_name := by
  unfold mlRef
  dsimp only
  split_ifs <;> rfl

theorem mlImg1_os (st : MetaState) (l : Str) : (mlImg1 st l).os_name = st.os_name := by
  unfold mlImg1
  split_ifs <;> rfl

theorem mlImg2_os (st : MetaState) (l : Str) : (mlImg2 st l).os_name = st.os_name := by
  unfold mlImg2
  split_ifs with h
  · cases imageTokenScan l <;> rfl
  · rfl

theorem metaLine_os (st : MetaState) (l : Str) (next : Option Str) :
    (metaLine st l next).os_name =
      match next with
      | some nl => if l = osLit then some (trimL nl) else st.os_name
      | none => st.os_name := by
  unfold metaLine
  rw [mlImg2_os, mlImg1_os]
  cases next with
  | none =>
    dsimp only [mlOs]
    rw [mlRef_os, mlRepo_os, mlJda_os]
  | some nl =>
    dsimp only [mlOs]
    split_ifs with he
    · rfl
    · rw [mlRef_os, mlRepo_os, mlJda_os]

theorem getLast?_cons_or {α : Type} (a : α) (xs : List α) :
    (a :: xs).getLast? = xs.getLast?.or (some a) := by
  cases xs with
  | nil => rfl
  | cons b t =>
    rw [List.getLast?_cons_cons]
    cases h : (b :: t).getLast? with
    | none => exact absurd (List.getLast?_eq_none.mp h) (by simp)
    | some v => rfl

theorem osSpecLast_cons_cons (l r : Str) (t : List Str) :
    osSpecLast (l :: r :: t)
      = (osSpecLast (r :: t)).or (if l = osLit then some (trimL r) else none) := by
  unfold osSpecLast
  rw [show (l :: r :: t).tail = r :: t from rfl, show (r :: t).tail = t from rfl,
    List.zip_cons_cons, List.filterMap_cons]
  by_cases hl : l = osLit
  · dsimp only
    rw [if_pos hl]
    dsimp only
    exact getLast?_cons_or _ _
  · dsimp only
    rw [if_neg hl]
    dsimp only
    cases hx : (((r :: t).zip t).filterMap
        (fun p => if p.1 = osLit then some (trimL p.2) else none)).getLast? <;> rfl

theorem extractMetaAux_os (lines : List Str) :
    ∀ (st : MetaState), (extractMetaAux st lines).os_name
      = (osSpecLast lines).or st.os_name := by
  induction lines with
  | nil =>
    intro st
    rfl
  | cons l rest ih =>
    intro st
    unfold extractMetaAux
    rw [ih]
    cases rest with
    | nil =>
      rw [metaLine_os]
      rfl
    | cons r t =>
      rw [osSpecLast_cons_cons, metaLine_os]
      cases h2 : osSpecLast (r :: t) with
      | some v => rfl
      | none =>
        simp only [List.head?_cons]
        by_cases hl : l = osLit
        · rw [if_pos hl, if_pos hl]
          rfl
        · rw [if_neg hl, if_neg hl]
          rfl

theorem mlRepo_ref (st : MetaState) (l : Str) : (mlRepo st l).ref = st.ref := by
  unfold mlRepo
  split_ifs <;> rfl

theorem mlOs_ref (st : MetaState) (l : Str) (next : Option Str) :
    (mlOs st l next).ref = st.ref := by
  unfold mlOs
  cases next
  · rfl
  · dsimp only
    split_ifs <;> rfl

theorem mlImg1_ref (st : MetaState) (l : Str) : (mlImg1 st l).ref = st.ref := by
  unfold mlImg1
  split_ifs <;> rfl

theorem mlImg2_ref (st : MetaState) (l : Str) : (mlImg2 st l).ref = st.ref := by
  unfold mlImg2
  split_ifs with h
  · cases imageTokenScan l <;> rfl
  · rfl

theorem mlRef_id_of (st : MetaState) (l : Str) (h : hasSub refLit l = false) :
    mlRef st l = st := by
  simp [mlRef, h]

theorem mlJda_ref_concrete (st : MetaState) (h : falsyS st.repo = true) :
    (mlJda st (("Job defined at: octo/repo@abc123").data)).ref
      = some (("abc123").data) := by
  unfold mlJda
  rw [if_pos ⟨by decide, h⟩]
  dsimp only
  rw [show splitOnceChar '@'
      (trimL ((afterSub jdaLit (("Job defined at: octo/repo@abc123").data)).getD []))
      = some ((("octo/repo").data), (("abc123").data)) from by decide]
  dsimp only
  rw [if_pos (by decide : 2 ≤ (splitAllChar '/' (("octo/repo").data)).length)]

theorem extractMeta_ref_overwrite (st : MetaState) (h : falsyS st.repo = true) :
    (extractMetaAux st [("Job defined at: octo/repo@abc123").data]).ref
      = some (("abc123").data) := by
  show (metaLine st (("Job defined at: octo/repo@abc123").data) none).ref
      = some (("abc123").data)
  unfold metaLine
  rw [mlImg2_ref, mlImg1_ref, mlOs_ref, mlRef_id_of _ _ (by decide), mlRepo_ref,
    mlJda_ref_concrete st h]

/-- Claim C5, counterexample: with two `Operating System` markers, the
extractor keeps the line after the *last* one (not the first), and a
later `Job defined at:` line overwrites the `ref` taken earlier from a
`ref:` line — both against first-match-wins. -/
theorem metadata_counterexample :
    extract_basic_metadata
      [("Operating System").data, ("  Ubuntu 22.04").data,
       ("ref: refs/heads/main").data,
       ("Operating System").data, ("Windows Server 2022").data,
       ("Job defined at: octo/repo@abc123").data]
      = ⟨some (("octo/repo").data), some (("abc123").data),
         some (("Windows Server 2022").data), none⟩
    ∧ (("Windows Server 2022").data ≠ ("Ubuntu 22.04").data)
    ∧ (("abc123").data ≠ ("refs/heads/main").data) := by decide

/-- Claim C5 (amended): `repo` and `runner_image` use first-truthy-wins
semantics (once truthy they never change); `os_name` is taken from the
line immediately following the *last* line that is exactly
`Operating System`; and `ref` is not first-match-wins: a
`Job defined at:` line processed while `repo` is still falsy overwrites
any previously extracted `ref` with its `@`-suffix. -/
theorem metadata_amended :
    (∀ (st : MetaState) (lines : List Str), falsyS st.repo = false →
        (extractMetaAux st lines).repo = st.repo)
    ∧ (∀ (st : MetaState) (lines : List Str), falsyS st.runner_image = false →
        (extractMetaAux st lines).runner_image = st.runner_image)
    ∧ (∀ lines : List Str, (extract_basic_metadata lines).os_name = osSpecLast lines)
    ∧ (∀ st : MetaState, falsyS st.repo = true →
        (extractMetaAux st [("Job defined at: octo/repo@abc123").data]).ref
          = some (("abc123").data)) := by
  refine ⟨?_, ?_, ?_, ?_⟩
  · intro st lines h
    exact extractMetaAux_repo_keep lines st h
  · intro st lines h
    exact extractMetaAux_runner_keep lines st h
  · intro lines
    unfold extract_basic_metadata
    rw [extractMetaAux_os]
    exact Option.or_none
  · exact extractMeta_ref_overwrite

/-- Claim C5, witness: a truthy `repo` is not overwritten by a later
`repository:` line. -/
theorem metadata_amended_witness :
    (extractMetaAux ⟨some (("octo/x").data), none, none, none⟩
        [("repository: other/y").data]).repo = some (("octo/x").data) :=
  metadata_amended.1 ⟨some (("octo/x").data), none, none, none⟩
    [("repository: other/y").data] (by decide)

theorem takeDigits_of_append (n : Nat) (ds rest : Str) (hn : ds.length = n)
    (hd : ∀ c ∈ ds, c.isDigit = true) : takeDigits n (ds ++ rest) = some rest := by
  subst hn
  induction ds with
  | nil => rfl
  | cons c ds' ih =>
    show takeDigits (ds'.length + 1) (c :: (ds' ++ rest)) = some rest
    unfold takeDigits
    rw [if_pos (hd c (List.mem_cons_self c ds'))]
    exact ih (fun c' hc' => hd c' (List.mem_cons_of_mem c hc'))

theorem expectChar_cons (c : Char) (rest : Str) : expectChar c (c :: rest) = some rest := by
  simp [expectChar]

theorem dropWhile_all_append (p : Char → Bool) (w rest : Str)
    (hall : ∀ c ∈ w, p c = true) :
    (w ++ rest).dropWhile p = rest.dropWhile p := by
  induction w with
  | nil => rfl
  | cons c w' ih =>
    show ((c :: (w' ++ rest)).dropWhile p) = rest.dropWhile p
    rw [List.dropWhile_cons, if_pos (hall c (List.mem_cons_self c w'))]
    exact ih (fun c' hc' => hall c' (List.mem_cons_of_mem c hc'))

theorem dropWhile_head_false (p : Char → Bool) (rest : Str)
    (hrest : ∀ c, rest.head? = some c → p c = false) :
    rest.dropWhile p = rest := by
  cases rest with
  | nil => rfl
  | cons c t =>
    rw [List.dropWhile_cons, if_neg]
    rw [hrest c rfl]
    exact Bool.false_ne_true

theorem runPlus_append (p : Char → Bool) (w rest : Str) (hw : w ≠ [])
    (hall : ∀ c ∈ w, p c = true)
    (hrest : ∀ c, rest.head? = some c → p c = false) :
    runPlus p (w ++ rest) = some rest := by
  cases w with
  | nil => exact absurd rfl hw
  | cons c w' =>
    show runPlus p (c :: (w' ++ rest)) = some rest
    unfold runPlus
    dsimp only
    rw [if_pos (hall c (List.mem_cons_self c w'))]
    rw [dropWhile_all_append p w' rest
      (fun c' hc' => hall c' (List.mem_cons_of_mem c hc'))]
    rw [dropWhile_head_false p rest hrest]

theorem dollarNl_no_nl (r : Str) (h : r.contains '\n' = false) :
    dollarNl r = some r := by
  unfold dollarNl
  rw [h]
  rfl

theorem tsRest_construct (y mo d t w r : Str)
    (hy : y.length = 4) (hyd : ∀ c ∈ y, c.isDigit = true)
    (hmo : mo.length = 2) (hmod : ∀ c ∈ mo, c.isDigit = true)
    (hd : d.length = 2) (hdd : ∀ c ∈ d, c.isDigit = true)
    (ht : t ≠ []) (htt : ∀ c ∈ t, isTimeChar c = true)
    (hw : w ≠ []) (hww : ∀ c ∈ w, isWsPy c = true)
    (hr : ∀ c, r.head? = some c → isWsPy c = false)
    (hrn : r.contains '\n' = false) :
    tsRest (y ++ ('-' :: (mo ++ ('-' :: (d ++ ('T' :: (t ++ ('Z' :: (w ++ r)))))))))
      = some r := by
  have hZ : ∀ c, (('Z' :: (w ++ r)).head? = some c) → isTimeChar c = false := by
    intro c hc
    rw [List.head?_cons] at hc
    cases hc
    decide
  unfold tsRest
  rw [takeDigits_of_append 4 y _ hy hyd, Option.some_bind, expectChar_cons,
    Option.some_bind, takeDigits_of_append 2 mo _ hmo hmod, Option.some_bind,
    expectChar_cons, Option.some_bind, takeDigits_of_append 2 d _ hd hdd,
    Option.some_bind, expectChar_cons, Option.some_bind,
    runPlus_append isTimeChar t _ ht htt hZ,
    Option.some_bind, expectChar_cons, Option.some_bind,
    runPlus_append isWsPy w r hw hww hr, Option.some_bind, dollarNl_no_nl r hrn]

theorem takeDigits_inv (n : Nat) :
    ∀ (cs rest : Str), takeDigits n cs = some rest →
      ∃ ds, cs = ds ++ rest ∧ ds.length = n ∧ ∀ c ∈ ds, c.isDigit = true := by
  induction n with
  | zero =>
    intro cs rest h
    exact ⟨[], by simpa [takeDigits] using h, rfl, by simp⟩
  | succ n ih =>
    intro cs rest h
    cases cs with
    | nil => exact absurd h (by simp [takeDigits])
    | cons c cs' =>
      unfold takeDigits at h
      by_cases hc : c.isDigit = true
      · rw [if_pos hc] at h
        obtain ⟨ds', he, hlen, hall⟩ := ih cs' rest h
        refine ⟨c :: ds', by rw [List.cons_append, he], by simp [hlen], ?_⟩
        intro c' hc'
        cases List.mem_cons.mp hc' with
        | inl e => exact e ▸ hc
        | inr e => exact hall c' e
      · rw [if_neg hc] at h
        exact absurd h (by simp)

theorem expectChar_inv (c : Char) (cs rest : Str) (h : expectChar c cs = some rest) :
    cs = c :: rest := by
  cases cs with
  | nil => exact absurd h (by simp [expectChar])
  | cons x t =>
    unfold expectChar at h
    dsimp only at h
    by_cases hx : x = c
    · rw [if_pos hx] at h
      rw [hx, Option.some_inj.mp h]
    · rw [if_neg hx] at h
      exact absurd h (by simp)

theorem dropWhile_head_not (p : Char → Bool) :
    ∀ (l : Str) (c : Char), (l.dropWhile p).head? = some c → p c = false := by
  intro l
  induction l with
  | nil =>
    intro c h
    exact absurd h (by simp)
  | cons a t ih =>
    intro c h
    rw [List.dropWhile_cons] at h
    by_cases ha : p a = true
    · rw [if_pos ha] at h
      exact ih c h
    · rw [if_neg ha] at h
      rw [List.head?_cons] at h
      cases h
      cases hb : p a
      · rfl
      · exact absurd hb ha

theorem runPlus_inv (p : Char → Bool) (cs rest : Str) (h : runPlus p cs = some rest) :
    ∃ w, cs = w ++ rest ∧ w ≠ [] ∧ (∀ c ∈ w, p c = true)
      ∧ (∀ c, rest.head? = some c → p c = false) := by
  cases cs with
  | nil => exact absurd h (by simp [runPlus])
  | cons c t =>
    unfold runPlus at h
    dsimp only at h
    by_cases hc : p c = true
    · rw [if_pos hc] at h
      have hrest : rest = t.dropWhile p := (Option.some_inj.mp h).symm
      refine ⟨c :: t.takeWhile p, ?_, by simp, ?_, ?_⟩
      · rw [List.cons_append, hrest, List.takeWhile_append_dropWhile]
      · intro c' hc'
        cases List.mem_cons.mp hc' with
        | inl e => exact e ▸ hc
        | inr e => exact List.mem_takeWhile_imp e
      · intro c' hc'
        rw [hrest] at hc'
        exact dropWhile_head_not p t c' hc'
    · rw [if_neg hc] at h
      exact absurd h (by simp)

theorem dollarNl_inv (cs r : Str) (h : dollarNl cs = some r) :
    (cs = r ∧ r.contains '\n' = false)
    ∨ (cs = r ++ ['\n'] ∧ r.contains '\n' = false) := by
  unfold dollarNl at h
  by_cases h1 : cs.contains '\n' = true
  · rw [if_pos h1] at h
    by_cases h2 : (cs.getLast? = some '\n' && !(cs.dropLast.contains '\n')) = true
    · rw [if_pos h2] at h
      have hr : r = cs.dropLast := (Option.some_inj.mp h).symm
      rw [Bool.and_eq_true] at h2
      have hlast : cs.getLast? = some '\n' := by
        have := h2.1
        exact of_decide_eq_true this
      have hnn : cs.dropLast.contains '\n' = false := by
        have := h2.2
        cases hb : cs.dropLast.contains '\n'
        · rfl
        · rw [hb] at this
          exact absurd this (by decide)
      have hne : cs ≠ [] := by
        intro he
        rw [he] at hlast
        exact absurd hlast (by simp)
      refine Or.inr ⟨?_, by rw [hr]; exact hnn⟩
      have hgl : cs.getLast hne = '\n' := by
        have := List.getLast?_eq_getLast cs hne
        rw [this] at hlast
        exact Option.some_inj.mp hlast
      rw [hr, ← hgl]
      exact (List.dropLast_append_getLast hne).symm
    · rw [if_neg h2] at h
      exact absurd h (by simp)
  · rw [if_neg h1] at h
    have h1f : cs.contains '\n' = false := by
      cases hb : cs.contains '\n'
      · rfl
      · exact absurd hb h1
    have hr : cs = r := Option.some_inj.mp h
    exact Or.inl ⟨hr, hr ▸ h1f⟩

/-- Claim C4, counterexample: the line `2024-01-02T3Z  x` is not of the
spec's form (its time part `3` is not a time with fractional seconds,
and two spaces follow the `Z`), yet `strip_timestamp` does not return it
unchanged: the source regex accepts any nonempty run of `[0-9:.]` and
any whitespace run. -/
theorem strip_timestamp_counterexample :
    strip_timestamp "2024-01-02T3Z  x" = "x"
    ∧ specTsRest (("2024-01-02T3Z  x").data) = none
    ∧ ("x" : String) ≠ "2024-01-02T3Z  x" := by decide

/-- Claim C4 (amended): `strip_timestamp` strips a leading prefix of the
form four digits, `-`, two digits, `-`, two digits, `T`, a nonempty run
of digits/colons/dots, `Z`, and a nonempty whitespace run (all of which
is removed), returning the remainder; and every line is either returned
unchanged or decomposes into exactly that form, with the returned value
the remainder (up to the regex's final-newline rule).  The function is a
pure function of the line. -/
theorem strip_timestamp_amended :
    (∀ (y mo d t w r : Str),
      y.length = 4 → (∀ c ∈ y, c.isDigit = true) →
      mo.length = 2 → (∀ c ∈ mo, c.isDigit = true) →
      d.length = 2 → (∀ c ∈ d, c.isDigit = true) →
      t ≠ [] → (∀ c ∈ t, isTimeChar c = true) →
      w ≠ [] → (∀ c ∈ w, isWsPy c = true) →
      (∀ c, r.head? = some c → isWsPy c = false) →
      r.contains '\n' = false →
      strip_timestampL
        (y ++ ('-' :: (mo ++ ('-' :: (d ++ ('T' :: (t ++ ('Z' :: (w ++ r)))))))))
        = r)
    ∧ (∀ line : Str, strip_timestampL line = line ∨
        ∃ y mo d t w rest,
          line = y ++ ('-' :: (mo ++ ('-' :: (d ++ ('T' :: (t ++ ('Z' :: (w ++ rest))))))))
          ∧ y.length = 4 ∧ (∀ c ∈ y, c.isDigit = true)
          ∧ mo.length = 2 ∧ (∀ c ∈ mo, c.isDigit = true)
          ∧ d.length = 2 ∧ (∀ c ∈ d, c.isDigit = true)
          ∧ t ≠ [] ∧ (∀ c ∈ t, isTimeChar c = true)
          ∧ w ≠ [] ∧ (∀ c ∈ w, isWsPy c = true)
          ∧ (strip_timestampL line = rest
             ∨ (rest.getLast? = some '\n'
                ∧ strip_timestampL line = rest.dropLast))) := by
  constructor
  · intro y mo d t w r hy hyd hmo hmod hd hdd ht htt hw hww hr hrn
    unfold strip_timestampL
    rw [tsRest_construct y mo d t w r hy hyd hmo hmod hd hdd ht htt hw hww hr hrn]
  · intro line
    cases hts : tsRest line with
    | none =>
      left
      unfold strip_timestampL
      rw [hts]
    | some v =>
      right
      unfold tsRest at hts
      obtain ⟨u9, h9, hdn⟩ := Option.bind_eq_some.mp hts
      obtain ⟨u8, h8, hw9⟩ := Option.bind_eq_some.mp h9
      obtain ⟨u7, h7, hz8⟩ := Option.bind_eq_some.mp h8
      obtain ⟨u6, h6, ht7⟩ := Option.bind_eq_some.mp h7
      obtain ⟨u5, h5, hT6⟩ := Option.bind_eq_some.mp h6
      obtain ⟨u4, h4, hd5⟩ := Option.bind_eq_some.mp h5
      obtain ⟨u3, h3, hm4⟩ := Option.bind_eq_some.mp h4
      obtain ⟨u2, h2, hmo3⟩ := Option.bind_eq_some.mp h3
      obtain ⟨u1, h1, hy2⟩ := Option.bind_eq_some.mp h2
      obtain ⟨y, hey, hylen, hyall⟩ := takeDigits_inv 4 line u1 h1
      have heu1 : u1 = '-' :: u2 := expectChar_inv '-' u1 u2 hy2
      obtain ⟨mo, hemo, hmolen, hmoall⟩ := takeDigits_inv 2 u2 u3 hmo3
      have heu3 : u3 = '-' :: u4 := expectChar_inv '-' u3 u4 hm4
      obtain ⟨d, hed, hdlen, hdall⟩ := takeDigits_inv 2 u4 u5 hd5
      have heu5 : u5 = 'T' :: u6 := expectChar_inv 'T' u5 u6 hT6
      obtain ⟨t, het, htne, htall, _⟩ := runPlus_inv isTimeChar u6 u7 ht7
      have heu7 : u7 = 'Z' :: u8 := expectChar_inv 'Z' u7 u8 hz8
      obtain ⟨w, hew, hwne, hwall, _⟩ := runPlus_inv isWsPy u8 u9 hw9
      refine ⟨y, mo, d, t, w, u9, ?_, hylen, hyall, hmolen, hmoall, hdlen, hdall,
        htne, htall, hwne, hwall, ?_⟩
      · rw [hey, heu1, hemo, heu3, hed, heu5, het, heu7, hew]
      · have hstrip : strip_timestampL line = v := by
          unfold strip_timestampL tsRest
          rw [h1, Option.some_bind, hy2, Option.some_bind, hmo3, Option.some_bind,
            hm4, Option.some_bind, hd5, Option.some_bind, hT6, Option.some_bind,
            ht7, Option.some_bind, hz8, Option.some_bind, hw9, Option.some_bind,
            hdn]
        cases dollarNl_inv u9 v hdn with
        | inl hc =>
          left
          rw [hstrip, hc.1]
        | inr hc =>
          right
          constructor
          · rw [hc.1]
            exact List.getLast?_concat v
          · rw [hstrip, hc.1, List.dropLast_concat]

/-- Claim C4, witness: a concrete line of the amended form is stripped
to its remainder. -/
theorem strip_timestamp_amended_witness :
    strip_timestampL (("2024").data ++ ('-' :: (("01").data ++ ('-' :: (("02").data
        ++ ('T' :: (("03:04:05.1").data ++ ('Z' :: ([' '] ++ ("hello").data)))))))))
      = ("hello").data :=
  strip_timestamp_amended.1 (("2024").data) (("01").data) (("02").data)
    (("03:04:05.1").data) ([' ']) (("hello").data)
    (by decide) (by decide) (by decide) (by decide) (by decide) (by decide)
    (by decide) (by decide) (by decide) (by decide) (by decide) (by decide)
end RulebasedSummarizer
